import Mathlib

/-!
Verification of the msgpack-RPC message codec and server dispatch of
hhatto/msgpack-rpc-rust, as a shallow embedding.

The embedding covers:

* the msgpack dynamic value (`Value`, mirroring `rmpv::Value` as used by the
  repository) together with its byte-level codec (`encodeValue`,
  `readValue`), mirroring `rmpv::encode::write_value` and
  `rmpv::decode::read_value` (minimal-format writer, all-formats reader);
* `Message`, `Message.pack` and `Message.unpack` from `src/message.rs`,
  where every `panic!` / `expect` / `unwrap` / `unimplemented!` of the
  source becomes an explicit `Panic` error value;
* the per-message behaviour of the spawned handler task in
  `Server::handle` from `src/server.rs`, as an effect trace.

Bytes are modelled as `List Nat` (each entry a byte value below 256);
machine integers are `Nat`/`Int` with explicit bounds where the source
casts (`id as u32` becomes `% 2 ^ 32`).
-/

set_option maxRecDepth 8000

namespace MsgpackRpc

/-- The msgpack dynamic value, mirroring `rmpv::Value`: nil, booleans,
integers (canonically signed-or-unsigned, here one mathematical `Int`),
floats (kept as their IEEE-754 bit patterns, since the codec only moves
bits), strings and binaries as raw byte lists, arrays, maps as ordered
association lists, and extension values. -/
inductive Value where
  | nil : Value
  | bool (b : Bool) : Value
  | int (n : Int) : Value
  | f32 (bits : Nat) : Value
  | f64 (bits : Nat) : Value
  | str (bytes : List Nat) : Value
  | bin (bytes : List Nat) : Value
  | arr (items : List Value) : Value
  | map (entries : List (Value × Value)) : Value
  | ext (ty : Int) (data : List Nat) : Value
deriving Repr

/-- Encodability bounds for a value, mirroring the ranges representable by
`rmpv::Value` (u8 bytes, u64/i64 integers, u32 lengths, i8 ext types). -/
def Value.validb : Value → Bool
  | .nil => true
  | .bool _ => true
  | .int n => decide (-(2 ^ 63) ≤ n) && decide (n < 2 ^ 64)
  | .f32 bits => decide (bits < 2 ^ 32)
  | .f64 bits => decide (bits < 2 ^ 64)
  | .str bytes => decide (bytes.length < 2 ^ 32) && bytes.all (fun b => decide (b < 256))
  | .bin bytes => decide (bytes.length < 2 ^ 32) && bytes.all (fun b => decide (b < 256))
  | .arr items => decide (items.length < 2 ^ 32) && validList items
  | .map entries => decide (entries.length < 2 ^ 32) && validPairs entries
  | .ext ty data =>
      decide (-128 ≤ ty) && decide (ty < 128) &&
      decide (data.length < 2 ^ 32) && data.all (fun b => decide (b < 256))
where
  validList : List Value → Bool
    | [] => true
    | v :: vs => v.validb && validList vs
  validPairs : List (Value × Value) → Bool
    | [] => true
    | (k, v) :: rest => k.validb && v.validb && validPairs rest

/-- Nesting depth of a value: the number of nested msgpack headers on the
deepest path. Reading a value of depth `d` recurses `d` levels. -/
def Value.depth : Value → Nat
  | .arr items => 1 + depthList items
  | .map entries => 1 + depthPairs entries
  | _ => 1
where
  depthList : List Value → Nat
    | [] => 0
    | v :: vs => max v.depth (depthList vs)
  depthPairs : List (Value × Value) → Nat
    | [] => 0
    | (k, v) :: rest => max (max k.depth v.depth) (depthPairs rest)

/-- Big-endian byte string of width `k` for `n` (most significant byte
first), as written by the fixed-width msgpack formats. -/
def beBytes : Nat → Nat → List Nat
  | 0, _ => []
  | k + 1, n => (n / 256 ^ k) :: beBytes k (n % 256 ^ k)

/-- Read `k` big-endian bytes, accumulating into `acc`. -/
def rdBE : Nat → Nat → List Nat → Option (Nat × List Nat)
  | 0, acc, bs => some (acc, bs)
  | _ + 1, _, [] => none
  | k + 1, acc, b :: bs => rdBE k (acc * 256 + b) bs

/-- Split off exactly `n` leading bytes. -/
def takeN : Nat → List Nat → Option (List Nat × List Nat)
  | 0, bs => some ([], bs)
  | _ + 1, [] => none
  | n + 1, b :: bs => (takeN n bs).map (fun p => (b :: p.1, p.2))

/-- Minimal msgpack encoding of an unsigned integer, as
`rmp::encode::write_uint`: positive fixint, then uint8/16/32/64. -/
def uintBytes (n : Nat) : List Nat :=
  if n < 128 then [n]
  else if n < 256 then [0xcc, n]
  else if n < 2 ^ 16 then 0xcd :: beBytes 2 n
  else if n < 2 ^ 32 then 0xce :: beBytes 4 n
  else 0xcf :: beBytes 8 n

/-- Minimal msgpack encoding of a negative integer, as
`rmp::encode::write_sint` on negatives: negative fixint, then
int8/16/32/64, two's complement big-endian. -/
def sintBytes (n : Int) : List Nat :=
  if -32 ≤ n then [(n + 256).toNat]
  else if -128 ≤ n then [0xd0, (n + 256).toNat]
  else if -(2 ^ 15) ≤ n then 0xd1 :: beBytes 2 (n + 2 ^ 16).toNat
  else if -(2 ^ 31) ≤ n then 0xd2 :: beBytes 4 (n + 2 ^ 32).toNat
  else 0xd3 :: beBytes 8 (n + 2 ^ 64).toNat

/-- Minimal msgpack str header for a payload of `len` bytes:
fixstr, str8, str16, str32. -/
def strHeader (len : Nat) : List Nat :=
  if len < 32 then [0xa0 + len]
  else if len < 256 then [0xd9, len]
  else if len < 2 ^ 16 then 0xda :: beBytes 2 len
  else 0xdb :: beBytes 4 len

/-- Minimal msgpack bin header: bin8, bin16, bin32. -/
def binHeader (len : Nat) : List Nat :=
  if len < 256 then [0xc4, len]
  else if len < 2 ^ 16 then 0xc5 :: beBytes 2 len
  else 0xc6 :: beBytes 4 len

/-- Minimal msgpack array header: fixarray, array16, array32. -/
def arrHeader (len : Nat) : List Nat :=
  if len < 16 then [0x90 + len]
  else if len < 2 ^ 16 then 0xdc :: beBytes 2 len
  else 0xdd :: beBytes 4 len

/-- Minimal msgpack map header: fixmap, map16, map32. -/
def mapHeader (len : Nat) : List Nat :=
  if len < 16 then [0x80 + len]
  else if len < 2 ^ 16 then 0xde :: beBytes 2 len
  else 0xdf :: beBytes 4 len

/-- Two's complement byte of an ext type tag in `[-128, 128)`. -/
def extTypeByte (ty : Int) : Nat :=
  if ty < 0 then (ty + 256).toNat else ty.toNat

/-- Msgpack ext header (marker, length if needed, then the type byte), as
`rmp::encode::write_ext_meta`: fixext1/2/4/8/16 for those exact payload
lengths, otherwise ext8/16/32. -/
def extHeader (len : Nat) (ty : Int) : List Nat :=
  if len = 1 then [0xd4, extTypeByte ty]
  else if len = 2 then [0xd5, extTypeByte ty]
  else if len = 4 then [0xd6, extTypeByte ty]
  else if len = 8 then [0xd7, extTypeByte ty]
  else if len = 16 then [0xd8, extTypeByte ty]
  else if len < 256 then [0xc7, len, extTypeByte ty]
  else if len < 2 ^ 16 then 0xc8 :: beBytes 2 len ++ [extTypeByte ty]
  else 0xc9 :: beBytes 4 len ++ [extTypeByte ty]

mutual

/-- Byte encoding of a value, mirroring `rmpv::encode::write_value`:
the minimal msgpack format for each constructor. -/
def encodeValue : Value → List Nat
  | .nil => [0xc0]
  | .bool false => [0xc2]
  | .bool true => [0xc3]
  | .int n => if 0 ≤ n then uintBytes n.toNat else sintBytes n
  | .f32 bits => 0xca :: beBytes 4 bits
  | .f64 bits => 0xcb :: beBytes 8 bits
  | .str bytes => strHeader bytes.length ++ bytes
  | .bin bytes => binHeader bytes.length ++ bytes
  | .arr items => arrHeader items.length ++ encodeList items
  | .map entries => mapHeader entries.length ++ encodePairs entries
  | .ext ty data => extHeader data.length ty ++ data

/-- Concatenated encodings of a list of values (array elements). -/
def encodeList : List Value → List Nat
  | [] => []
  | v :: vs => encodeValue v ++ encodeList vs

/-- Concatenated encodings of key/value pairs (map entries). -/
def encodePairs : List (Value × Value) → List Nat
  | [] => []
  | (k, v) :: rest => encodeValue k ++ encodeValue v ++ encodePairs rest

end

/-- Sign-extend a `w`-bit two's complement value. -/
def sgn (w : Nat) (n : Nat) : Int :=
  if n < 2 ^ (w - 1) then (n : Int) else (n : Int) - 2 ^ w

/-- Classification of a msgpack marker byte: which format family it opens
and the width of its length field (or the embedded fix-format payload).
Splitting this off keeps the recursive reader itself a small match. -/
inductive Head where
  | posfix (n : Nat) : Head
  | fixmap (n : Nat) : Head
  | fixarr (n : Nat) : Head
  | fixstr (n : Nat) : Head
  | nilMark : Head
  | reserved : Head
  | boolMark (b : Bool) : Head
  | binMark (w : Nat) : Head
  | extMark (w : Nat) : Head
  | fixext (len : Nat) : Head
  | f32Mark : Head
  | f64Mark : Head
  | uintMark (w : Nat) : Head
  | sintMark (w : Nat) : Head
  | strMark (w : Nat) : Head
  | arrMark (w : Nat) : Head
  | mapMark (w : Nat) : Head
  | negfix (n : Int) : Head
  | badMark : Head
deriving Repr, DecidableEq

/-- Decode a marker byte, following the msgpack format table implemented
by `rmp::decode` (and `0xc1` as the reserved, never-used marker). -/
def headOf (b : Nat) : Head :=
  if b ≤ 0x7f then .posfix b
  else if b ≤ 0x8f then .fixmap (b - 0x80)
  else if b ≤ 0x9f then .fixarr (b - 0x90)
  else if b ≤ 0xbf then .fixstr (b - 0xa0)
  else if b = 0xc0 then .nilMark
  else if b = 0xc1 then .reserved
  else if b = 0xc2 then .boolMark false
  else if b = 0xc3 then .boolMark true
  else if b = 0xc4 then .binMark 1
  else if b = 0xc5 then .binMark 2
  else if b = 0xc6 then .binMark 4
  else if b = 0xc7 then .extMark 1
  else if b = 0xc8 then .extMark 2
  else if b = 0xc9 then .extMark 4
  else if b = 0xca then .f32Mark
  else if b = 0xcb then .f64Mark
  else if b = 0xcc then .uintMark 1
  else if b = 0xcd then .uintMark 2
  else if b = 0xce then .uintMark 4
  else if b = 0xcf then .uintMark 8
  else if b = 0xd0 then .sintMark 1
  else if b = 0xd1 then .sintMark 2
  else if b = 0xd2 then .sintMark 4
  else if b = 0xd3 then .sintMark 8
  else if b = 0xd4 then .fixext 1
  else if b = 0xd5 then .fixext 2
  else if b = 0xd6 then .fixext 4
  else if b = 0xd7 then .fixext 8
  else if b = 0xd8 then .fixext 16
  else if b = 0xd9 then .strMark 1
  else if b = 0xda then .strMark 2
  else if b = 0xdb then .strMark 4
  else if b = 0xdc then .arrMark 2
  else if b = 0xdd then .arrMark 4
  else if b = 0xde then .mapMark 2
  else if b = 0xdf then .mapMark 4
  else if b ≤ 0xff then .negfix ((b : Int) - 256)
  else .badMark

mutual

/-- Byte decoding of one top-level msgpack value, mirroring
`rmpv::decode::read_value`. The `fuel` argument bounds the nesting depth
that can be traversed; since every nesting level consumes at least its
marker byte, a fuel exceeding the input length restores the unbounded
recursion of the source. Returns the value and the unconsumed suffix, or
`none` where the source reader fails (truncated input or the reserved
marker 0xc1). -/
def readValue : Nat → List Nat → Option (Value × List Nat)
  | 0, _ => none
  | _ + 1, [] => none
  | fuel + 1, b :: bs =>
    match headOf b with
    | .posfix n => some (.int n, bs)
    | .fixmap n => (readPairs fuel n bs).map (fun p => (.map p.1, p.2))
    | .fixarr n => (readList fuel n bs).map (fun p => (.arr p.1, p.2))
    | .fixstr n => (takeN n bs).map (fun p => (.str p.1, p.2))
    | .nilMark => some (.nil, bs)
    | .reserved => none
    | .boolMark v => some (.bool v, bs)
    | .binMark w => do
      let (len, r) ← rdBE w 0 bs
      let (data, r2) ← takeN len r
      some (.bin data, r2)
    | .extMark w => do
      let (len, r) ← rdBE w 0 bs
      let (t, r2) ← rdBE 1 0 r
      let (data, r3) ← takeN len r2
      some (.ext (sgn 8 t) data, r3)
    | .fixext len => do
      let (t, r) ← rdBE 1 0 bs
      let (data, r2) ← takeN len r
      some (.ext (sgn 8 t) data, r2)
    | .f32Mark => do
      let (bits, r) ← rdBE 4 0 bs
      some (.f32 bits, r)
    | .f64Mark => do
      let (bits, r) ← rdBE 8 0 bs
      some (.f64 bits, r)
    | .uintMark w => do
      let (n, r) ← rdBE w 0 bs
      some (.int n, r)
    | .sintMark w => do
      let (n, r) ← rdBE w 0 bs
      some (.int (sgn (8 * w) n), r)
    | .strMark w => do
      let (len, r) ← rdBE w 0 bs
      let (s, r2) ← takeN len r
      some (.str s, r2)
    | .arrMark w => do
      let (len, r) ← rdBE w 0 bs
      (readList fuel len r).map (fun p => (.arr p.1, p.2))
    | .mapMark w => do
      let (len, r) ← rdBE w 0 bs
      (readPairs fuel len r).map (fun p => (.map p.1, p.2))
    | .negfix n => some (.int n, bs)
    | .badMark => none

/-- Read `n` consecutive values (the elements of an array). -/
def readList : Nat → Nat → List Nat → Option (List Value × List Nat)
  | _, 0, bs => some ([], bs)
  | fuel, n + 1, bs => do
    let (v, r) ← readValue fuel bs
    let (vs, r2) ← readList fuel n r
    some (v :: vs, r2)

/-- Read `n` consecutive key/value pairs (the entries of a map). -/
def readPairs : Nat → Nat → List Nat → Option (List (Value × Value) × List Nat)
  | _, 0, bs => some ([], bs)
  | fuel, n + 1, bs => do
    let (k, r) ← readValue fuel bs
    let (v, r2) ← readValue fuel r
    let (rest, r3) ← readPairs fuel n r2
    some ((k, v) :: rest, r3)

end

/-- UTF-8 validity of a byte list, per RFC 3629: this is the success
condition of `Utf8String::into_str` in `rmpv`, which `Message::unpack`
applies to the method slot. -/
def validUtf8 : List Nat → Bool
  | [] => true
  | b :: rest =>
    if b < 0x80 then validUtf8 rest
    else if b < 0xc2 then false
    else if b < 0xe0 then
      match rest with
      | c1 :: r => cont c1 && validUtf8 r
      | _ => false
    else if b < 0xf0 then
      match rest with
      | c1 :: c2 :: r =>
        (if b = 0xe0 then decide (0xa0 ≤ c1) && decide (c1 ≤ 0xbf)
         else if b = 0xed then decide (0x80 ≤ c1) && decide (c1 ≤ 0x9f)
         else cont c1) && cont c2 && validUtf8 r
      | _ => false
    else if b < 0xf5 then
      match rest with
      | c1 :: c2 :: c3 :: r =>
        (if b = 0xf0 then decide (0x90 ≤ c1) && decide (c1 ≤ 0xbf)
         else if b = 0xf4 then decide (0x80 ≤ c1) && decide (c1 ≤ 0x8f)
         else cont c1) && cont c2 && cont c3 && validUtf8 r
      | _ => false
    else false
where
  /-- A UTF-8 continuation byte: 0x80 to 0xbf. -/
  cont (c : Nat) : Bool := decide (0x80 ≤ c) && decide (c ≤ 0xbf)

/-- The `Request` struct of `src/message.rs`: a u32 id (modelled as `Nat`,
kept below 2^32 by the codec's cast), a method string (its UTF-8 bytes)
and parameter values. -/
structure Request where
  id : Nat
  method : List Nat
  params : List Value
deriving Repr

/-- The `Response` struct of `src/message.rs`: a u32 id and
`result : Result<Value, Value>`, modelled with `Except` (`.ok` for
`Ok`, `.error` for `Err`). -/
structure Response where
  id : Nat
  result : Except Value Value
deriving Repr

/-- The `Notification` struct of `src/message.rs`. -/
structure Notification where
  method : List Nat
  params : List Value
deriving Repr

/-- The `Message` enum of `src/message.rs`. -/
inductive Message where
  | request (r : Request) : Message
  | response (r : Response) : Message
  | notification (n : Notification) : Message
deriving Repr

/-- `Message::msgtype`: the wire type tag. -/
def Message.msgtype : Message → Int
  | .request _ => 0
  | .response _ => 1
  | .notification _ => 2

/-- The msgpack array built by `Message::pack` before serialization:
`[0, id, method, params]`, `[1, id, error, result]` (error slot nil and
result slot the value for `Ok`; error slot the value and result slot nil
for `Err`), or `[2, method, params]`. -/
def Message.toValue : Message → Value
  | .request r =>
      .arr [.int 0, .int r.id, .str r.method, .arr r.params]
  | .response r =>
      let slots : Value × Value :=
        match r.result with
        | .ok v => (.nil, v)
        | .error e => (e, .nil)
      .arr [.int 1, .int r.id, slots.1, slots.2]
  | .notification n =>
      .arr [.int 2, .str n.method, .arr n.params]

/-- `Message::pack`: serialize the message's msgpack array to bytes via
`rmpv::encode::write_value`. -/
def Message.pack (m : Message) : List Nat :=
  encodeValue m.toValue

/-- The panics of `Message::unpack` in `src/message.rs`, one constructor
per `expect` / `unwrap` / `panic!` / `unimplemented!` site. The source
function never returns an error value: every failure aborts the thread. -/
inductive Panic where
  /-- `read_value(reader).expect("Could not read value from transport")`. -/
  | readValueFailed : Panic
  /-- `panic!("Invalid msgpack-rpc message received: ...")`: not an array. -/
  | notAnArray : Panic
  /-- `array.get(i).unwrap()` on a too-short array. -/
  | missingElement : Panic
  /-- `panic!()`: the type slot is not an integer. -/
  | typeSlotNotInteger : Panic
  /-- `panic!()`: the id slot is not an integer. -/
  | idSlotNotInteger : Panic
  /-- `id.as_u64().expect("fail convert u64")`: negative id. -/
  | idNotU64 : Panic
  /-- `panic!()`: the method slot is not a string. -/
  | methodSlotNotString : Panic
  /-- `panic!()`: the params slot is not an array. -/
  | paramsSlotNotArray : Panic
  /-- `method.into_str().expect("fail convert str")`: invalid UTF-8. -/
  | methodNotUtf8 : Panic
  /-- `unimplemented!()`: type tag outside 0, 1, 2. -/
  | unknownTag : Panic
deriving Repr, DecidableEq

/-- `Message::unpack`: read one top-level msgpack value from the byte
stream and interpret it as an RPC message, mirroring `src/message.rs`
lines 44-126. `.ok` carries the parsed message together with the
unconsumed suffix of the stream (the source leaves those bytes in the
reader); `.error` marks the panic the source would hit. The fuel
`bytes.length + 1` cannot be exhausted before the input is, since every
recursion level of `read_value` consumes at least one byte. Note the
source's `id as u32` truncating cast (`% 2 ^ 32`). -/
def Message.unpack (bytes : List Nat) : Except Panic (Message × List Nat) :=
  match readValue (bytes.length + 1) bytes with
  | none => .error .readValueFailed
  | some (value, rest) =>
    match value with
    | .arr array =>
      match array.get? 0 with
      | none => .error .missingElement
      | some (.int msgType) =>
        if msgType = 0 then
          match array.get? 1 with
          | none => .error .missingElement
          | some (.int id) =>
            if id < 0 then .error .idNotU64
            else
              match array.get? 2 with
              | none => .error .missingElement
              | some (.str method) =>
                match array.get? 3 with
                | none => .error .missingElement
                | some (.arr params) =>
                  if validUtf8 method then
                    .ok (.request ⟨id.toNat % 2 ^ 32, method, params⟩, rest)
                  else .error .methodNotUtf8
                | some _ => .error .paramsSlotNotArray
              | some _ => .error .methodSlotNotString
          | some _ => .error .idSlotNotInteger
        else if msgType = 1 then
          match array.get? 1 with
          | none => .error .missingElement
          | some (.int id) =>
            if id < 0 then .error .idNotU64
            else
              match array.get? 2 with
              | none => .error .missingElement
              | some err =>
                match array.get? 3 with
                | none => .error .missingElement
                | some res =>
                  let result : Except Value Value :=
                    match err with
                    | .nil => .ok res
                    | _ => .error err
                  .ok (.response ⟨id.toNat % 2 ^ 32, result⟩, rest)
          | some _ => .error .idSlotNotInteger
        else if msgType = 2 then
          match array.get? 1 with
          | none => .error .missingElement
          | some (.str method) =>
            match array.get? 2 with
            | none => .error .missingElement
            | some (.arr params) =>
              if validUtf8 method then
                .ok (.notification ⟨method, params⟩, rest)
              else .error .methodNotUtf8
            | some _ => .error .paramsSlotNotArray
          | some _ => .error .methodSlotNotString
        else .error .unknownTag
      | some _ => .error .typeSlotNotInteger
    | _ => .error .notAnArray

/-- The first argument of `BidirectionalDispatch::dispatch` and
`::notify` as the server passes it. The source (`src/server.rs` line 105)
passes `Box::new(D::default())`, a freshly default-constructed dispatcher
with no link to any connection: constructor `defaultDispatcher`. The
constructor `boundTo conn` stands for what the specification asks for
instead, a client handle over the originating connection `conn`; the
source never builds one. -/
inductive PeerHandle where
  /-- The `Box::new(D::default())` value the source actually passes. -/
  | defaultDispatcher : PeerHandle
  /-- A client handle bound to connection `conn` (the specified design;
  modelled for comparison, not produced by the source). -/
  | boundTo (conn : Nat) : PeerHandle
deriving Repr, DecidableEq

/-- One recorded invocation of the user dispatcher. -/
structure DispatchCall where
  handle : PeerHandle
  method : List Nat
  args : List Value
deriving Repr

/-- The observable effects of the task `Server::handle` spawns for one
decoded message (`src/server.rs` lines 100-119): the `dispatch`
invocations made, the `notify` invocations made, the messages written
back to the connection, and whether the task aborted in a panic. -/
structure TaskOutcome where
  dispatched : List DispatchCall
  notified : List DispatchCall
  writes : List Message
  panicked : Bool
deriving Repr

set_option linter.unusedVariables false in
/-- Per-message behaviour of the task spawned by `Server::handle` on
connection `conn`: for a `Request`, call
`BidirectionalDispatch::dispatch(&mut dispatcher, Box::new(D::default()),
&method, params)` (the blanket impl forwards to `Dispatch::dispatch`,
ignoring the handle), then write `Response { id, result }` back; any
other message falls into the `_ => unimplemented!()` arm and the task
panics. The dispatcher is cloned per message, so it is modelled as the
pure outcome function `d` of its `dispatch` method. The connection
identifier `conn` is deliberately unused: nothing the source passes to
the dispatcher depends on the originating connection. -/
def serverHandleMessage (d : List Nat → List Value → Except Value Value)
    (conn : Nat) : Message → TaskOutcome
  | .request r =>
      { dispatched := [⟨.defaultDispatcher, r.method, r.params⟩]
        notified := []
        writes := [.response ⟨r.id, d r.method r.params⟩]
        panicked := false }
  | _ =>
      { dispatched := [], notified := [], writes := [], panicked := true }

/-- Well-formedness of a message, with the bounds that make it
representable in the source's types: a u32 id, a method whose bytes are
valid UTF-8 (a Rust `String` always is), and payload values within
msgpack's representable ranges. -/
def Message.wfb : Message → Bool
  | .request r =>
      decide (r.id < 2 ^ 32) && validUtf8 r.method &&
      (Value.str r.method).validb && (Value.arr r.params).validb
  | .response r =>
      decide (r.id < 2 ^ 32) &&
      (match r.result with
       | .ok v => v.validb
       | .error e => e.validb)
  | .notification n =>
      validUtf8 n.method &&
      (Value.str n.method).validb && (Value.arr n.params).validb

/-- True unless the message is a Response whose outcome is `Err(Nil)`.
`Err(Nil)` encodes with a nil error slot, which the decoder reads back as
`Ok`, so such a message cannot round-trip. -/
def Message.errNonNil : Message → Bool
  | .response ⟨_, .error .nil⟩ => false
  | _ => true

/-- Is a value the nil value? (Used to speak about the nil-ness of the
error and result slots of an encoded Response.) -/
def Value.isNil : Value → Bool
  | .nil => true
  | _ => false

/-- Exactly one of the two given slot values is non-nil. -/
def exactlyOneNonNil (e r : Value) : Bool :=
  (!e.isNil) != (!r.isNil)

/-- The specification's well-formedness for a message (spec section 3):
representable, and satisfying the invariant that a Response's outcome is
ok exactly when the error slot on the wire is nil — which rules out an
`Err(Nil)` outcome, whose wire form has a nil error slot. -/
def Message.wellFormed (m : Message) : Bool := m.wfb && m.errNonNil

/-- Fuel-indexed statement: one value round-trips. -/
def ReadValueOk (fuel : Nat) : Prop :=
  ∀ (v : Value) (rest : List Nat), v.validb = true → v.depth ≤ fuel →
    readValue fuel (encodeValue v ++ rest) = some (v, rest)

/-- Fuel-indexed statement: array elements round-trip. -/
def ReadListOk (fuel : Nat) : Prop :=
  ∀ (vs : List Value) (rest : List Nat), Value.validb.validList vs = true →
    Value.depth.depthList vs ≤ fuel →
    readList fuel vs.length (encodeList vs ++ rest) = some (vs, rest)

/-- Fuel-indexed statement: map entries round-trip. -/
def ReadPairsOk (fuel : Nat) : Prop :=
  ∀ (kvs : List (Value × Value)) (rest : List Nat),
    Value.validb.validPairs kvs = true →
    Value.depth.depthPairs kvs ≤ fuel →
    readPairs fuel kvs.length (encodePairs kvs ++ rest) = some (kvs, rest)

/-! ## Round-trip of the value codec -/

theorem takeN_append (xs rest : List Nat) :
    takeN xs.length (xs ++ rest) = some (xs, rest) := by
  induction xs with
  | nil => rfl
  | cons b bs ih => simp [takeN, ih]

theorem rdBE_beBytes (k : Nat) : ∀ (acc n : Nat) (rest : List Nat), n < 256 ^ k →
    rdBE k acc (beBytes k n ++ rest) = some (acc * 256 ^ k + n, rest) := by
  induction k with
  | zero =>
    intro acc n rest h
    interval_cases n
    simp [beBytes, rdBE]
  | succ k ih =>
    intro acc n rest h
    have hpos : 0 < 256 ^ k := Nat.pos_pow_of_pos k (by omega)
    simp only [beBytes, List.cons_append, rdBE, List.append_eq]
    rw [ih (acc * 256 + n / 256 ^ k) (n % 256 ^ k) rest (Nat.mod_lt _ hpos)]
    have hdm : n / 256 ^ k * 256 ^ k + n % 256 ^ k = n := by
      rw [Nat.mul_comm]; exact Nat.div_add_mod n (256 ^ k)
    have hgoal : (acc * 256 + n / 256 ^ k) * 256 ^ k + n % 256 ^ k
        = acc * 256 ^ (k + 1) + n := by
      rw [Nat.add_mul, Nat.add_assoc, hdm, Nat.pow_succ]; ring
    rw [hgoal]

theorem rdBE_beBytes_zero (k n : Nat) (rest : List Nat) (h : n < 256 ^ k) :
    rdBE k 0 (beBytes k n ++ rest) = some (n, rest) := by
  rw [rdBE_beBytes k 0 n rest h, Nat.zero_mul, Nat.zero_add]

theorem rdBE_one (m : Nat) (rest : List Nat) : rdBE 1 0 (m :: rest) = some (m, rest) := by
  simp [rdBE]

/-! ### Marker classification lemmas -/

theorem headOf_posfix (b : Nat) (h : b < 128) : headOf b = Head.posfix b := by
  rw [headOf, if_pos (by omega : b ≤ 0x7f)]

theorem headOf_fixmap (n : Nat) (h : n < 16) : headOf (0x80 + n) = Head.fixmap n := by
  rw [headOf, if_neg (by omega), if_pos (by omega : 0x80 + n ≤ 0x8f),
    Nat.add_sub_cancel_left]

theorem headOf_fixarr (n : Nat) (h : n < 16) : headOf (0x90 + n) = Head.fixarr n := by
  rw [headOf, if_neg (by omega), if_neg (by omega),
    if_pos (by omega : 0x90 + n ≤ 0x9f), Nat.add_sub_cancel_left]

theorem headOf_fixstr (n : Nat) (h : n < 32) : headOf (0xa0 + n) = Head.fixstr n := by
  rw [headOf, if_neg (by omega), if_neg (by omega), if_neg (by omega),
    if_pos (by omega : 0xa0 + n ≤ 0xbf), Nat.add_sub_cancel_left]

theorem headOf_negfix (b : Nat) (h1 : 0xe0 ≤ b) (h2 : b ≤ 0xff) :
    headOf b = Head.negfix ((b : Int) - 256) := by
  rw [headOf]
  repeat rw [if_neg (by omega)]
  rw [if_pos (by omega : b ≤ 0xff)]

/-! ### One-step reader evaluation, by marker family -/

theorem readValue_nil (fuel b : Nat) (bs : List Nat) (hb : headOf b = Head.nilMark) :
    readValue (fuel + 1) (b :: bs) = some (.nil, bs) := by
  rw [readValue, hb]

theorem readValue_bool (fuel b : Nat) (v : Bool) (bs : List Nat)
    (hb : headOf b = Head.boolMark v) :
    readValue (fuel + 1) (b :: bs) = some (.bool v, bs) := by
  rw [readValue, hb]

theorem readValue_posfix (fuel b n : Nat) (bs : List Nat)
    (hb : headOf b = Head.posfix n) :
    readValue (fuel + 1) (b :: bs) = some (.int n, bs) := by
  rw [readValue, hb]

theorem readValue_negfix (fuel b : Nat) (i : Int) (bs : List Nat)
    (hb : headOf b = Head.negfix i) :
    readValue (fuel + 1) (b :: bs) = some (.int i, bs) := by
  rw [readValue, hb]

theorem readValue_uintMark (fuel b w : Nat) (bs : List Nat)
    (hb : headOf b = Head.uintMark w) :
    readValue (fuel + 1) (b :: bs)
      = (rdBE w 0 bs).bind (fun p => some (.int p.1, p.2)) := by
  rw [readValue, hb]; rfl

theorem readValue_sintMark (fuel b w : Nat) (bs : List Nat)
    (hb : headOf b = Head.sintMark w) :
    readValue (fuel + 1) (b :: bs)
      = (rdBE w 0 bs).bind (fun p => some (.int (sgn (8 * w) p.1), p.2)) := by
  rw [readValue, hb]; rfl

theorem readValue_f32Mark (fuel b : Nat) (bs : List Nat)
    (hb : headOf b = Head.f32Mark) :
    readValue (fuel + 1) (b :: bs)
      = (rdBE 4 0 bs).bind (fun p => some (.f32 p.1, p.2)) := by
  rw [readValue, hb]; rfl

theorem readValue_f64Mark (fuel b : Nat) (bs : List Nat)
    (hb : headOf b = Head.f64Mark) :
    readValue (fuel + 1) (b :: bs)
      = (rdBE 8 0 bs).bind (fun p => some (.f64 p.1, p.2)) := by
  rw [readValue, hb]; rfl

theorem readValue_fixstr (fuel b n : Nat) (bs : List Nat)
    (hb : headOf b = Head.fixstr n) :
    readValue (fuel + 1) (b :: bs)
      = (takeN n bs).map (fun p => (.str p.1, p.2)) := by
  rw [readValue, hb]

theorem readValue_strMark (fuel b w : Nat) (bs : List Nat)
    (hb : headOf b = Head.strMark w) :
    readValue (fuel + 1) (b :: bs)
      = (rdBE w 0 bs).bind
          (fun p => (takeN p.1 p.2).bind (fun q => some (.str q.1, q.2))) := by
  rw [readValue, hb]; rfl

theorem readValue_binMark (fuel b w : Nat) (bs : List Nat)
    (hb : headOf b = Head.binMark w) :
    readValue (fuel + 1) (b :: bs)
      = (rdBE w 0 bs).bind
          (fun p => (takeN p.1 p.2).bind (fun q => some (.bin q.1, q.2))) := by
  rw [readValue, hb]; rfl

theorem readValue_fixext (fuel b len : Nat) (bs : List Nat)
    (hb : headOf b = Head.fixext len) :
    readValue (fuel + 1) (b :: bs)
      = (rdBE 1 0 bs).bind
          (fun p => (takeN len p.2).bind
            (fun q => some (.ext (sgn 8 p.1) q.1, q.2))) := by
  rw [readValue, hb]; rfl

theorem readValue_extMark (fuel b w : Nat) (bs : List Nat)
    (hb : headOf b = Head.extMark w) :
    readValue (fuel + 1) (b :: bs)
      = (rdBE w 0 bs).bind
          (fun p => (rdBE 1 0 p.2).bind
            (fun q => (takeN p.1 q.2).bind
              (fun z => some (.ext (sgn 8 q.1) z.1, z.2)))) := by
  rw [readValue, hb]; rfl

theorem readValue_fixarr (fuel b n : Nat) (bs : List Nat)
    (hb : headOf b = Head.fixarr n) :
    readValue (fuel + 1) (b :: bs)
      = (readList fuel n bs).map (fun p => (.arr p.1, p.2)) := by
  rw [readValue, hb]

theorem readValue_arrMark (fuel b w : Nat) (bs : List Nat)
    (hb : headOf b = Head.arrMark w) :
    readValue (fuel + 1) (b :: bs)
      = (rdBE w 0 bs).bind
          (fun p => (readList fuel p.1 p.2).map (fun q => (.arr q.1, q.2))) := by
  rw [readValue, hb]; rfl

theorem readValue_fixmap (fuel b n : Nat) (bs : List Nat)
    (hb : headOf b = Head.fixmap n) :
    readValue (fuel + 1) (b :: bs)
      = (readPairs fuel n bs).map (fun p => (.map p.1, p.2)) := by
  rw [readValue, hb]

theorem readValue_mapMark (fuel b w : Nat) (bs : List Nat)
    (hb : headOf b = Head.mapMark w) :
    readValue (fuel + 1) (b :: bs)
      = (rdBE w 0 bs).bind
          (fun p => (readPairs fuel p.1 p.2).map (fun q => (.map q.1, q.2))) := by
  rw [readValue, hb]; rfl

/-! ### Reader evaluation on encoder output, per constructor -/

theorem obind_some {α β : Type} (a : α) (f : α → Option β) :
    Option.bind (some a) f = f a := rfl

theorem mbind_some {α β : Type} (a : α) (f : α → Option β) :
    (some a : Option α) >>= f = f a := rfl

theorem omap_some {α β : Type} (a : α) (f : α → β) :
    Option.map f (some a) = some (f a) := rfl

theorem sgn_eq_self (w m : Nat) (h : m < 2 ^ (w - 1)) : sgn w m = m := by
  rw [sgn, if_pos h]

theorem sgn_eq_sub (w m : Nat) (h : ¬ m < 2 ^ (w - 1)) :
    sgn w m = (m : Int) - 2 ^ w := by
  rw [sgn, if_neg h]

theorem readValue_enc_nil (fuel : Nat) (rest : List Nat) :
    readValue (fuel + 1) (encodeValue .nil ++ rest) = some (.nil, rest) := by
  rw [encodeValue, List.cons_append, List.nil_append]
  exact readValue_nil fuel 0xc0 rest (by decide)

theorem readValue_enc_bool (fuel : Nat) (v : Bool) (rest : List Nat) :
    readValue (fuel + 1) (encodeValue (.bool v) ++ rest) = some (.bool v, rest) := by
  cases v <;>
    rw [encodeValue, List.cons_append, List.nil_append] <;>
    exact readValue_bool fuel _ _ rest (by decide)

theorem readValue_enc_uint (fuel m : Nat) (rest : List Nat) (h : m < 2 ^ 64) :
    readValue (fuel + 1) (uintBytes m ++ rest) = some (.int m, rest) := by
  rw [uintBytes]
  split_ifs with a1 a2 a3 a4
  · rw [List.cons_append, List.nil_append]
    exact readValue_posfix fuel m m rest (headOf_posfix m a1)
  · rw [List.cons_append, List.cons_append, List.nil_append,
      readValue_uintMark fuel 0xcc 1 _ (by decide), rdBE_one, obind_some]
  · rw [List.cons_append,
      readValue_uintMark fuel 0xcd 2 _ (by decide),
      rdBE_beBytes_zero 2 m rest (by norm_num at a3 ⊢; omega), obind_some]
  · rw [List.cons_append,
      readValue_uintMark fuel 0xce 4 _ (by decide),
      rdBE_beBytes_zero 4 m rest (by norm_num at a4 ⊢; omega), obind_some]
  · rw [List.cons_append,
      readValue_uintMark fuel 0xcf 8 _ (by decide),
      rdBE_beBytes_zero 8 m rest (by norm_num at h ⊢; omega), obind_some]

theorem readValue_enc_sint (fuel : Nat) (n : Int) (rest : List Nat)
    (h1 : -(2 ^ 63) ≤ n) (h2 : n < 0) :
    readValue (fuel + 1) (sintBytes n ++ rest) = some (.int n, rest) := by
  rw [sintBytes]
  split_ifs with a1 a2 a3 a4
  · rw [List.cons_append, List.nil_append,
      readValue_negfix fuel (n + 256).toNat (((n + 256).toNat : Int) - 256) rest
        (headOf_negfix _ (by omega) (by omega))]
    have hv : ((n + 256).toNat : Int) - 256 = n := by omega
    rw [hv]
  · rw [List.cons_append, List.cons_append, List.nil_append,
      readValue_sintMark fuel 0xd0 1 _ (by decide), rdBE_one, obind_some]
    have hv : sgn (8 * 1) (n + 256).toNat = n := by
      rw [sgn_eq_sub _ _ (by norm_num; omega)]; norm_num; omega
    rw [hv]
  · have hrw := rdBE_beBytes_zero 2 (n + 2 ^ 16).toNat rest (by norm_num; omega)
    rw [List.cons_append,
      readValue_sintMark fuel 0xd1 2 _ (by decide), hrw, obind_some]
    have hv : sgn (8 * 2) (n + 2 ^ 16).toNat = n := by
      rw [sgn_eq_sub _ _ (by norm_num; omega)]; norm_num; omega
    rw [hv]
  · have hrw := rdBE_beBytes_zero 4 (n + 2 ^ 32).toNat rest (by norm_num; omega)
    rw [List.cons_append,
      readValue_sintMark fuel 0xd2 4 _ (by decide), hrw, obind_some]
    have hv : sgn (8 * 4) (n + 2 ^ 32).toNat = n := by
      rw [sgn_eq_sub _ _ (by norm_num; omega)]; norm_num; omega
    rw [hv]
  · have hrw := rdBE_beBytes_zero 8 (n + 2 ^ 64).toNat rest (by norm_num; omega)
    rw [List.cons_append,
      readValue_sintMark fuel 0xd3 8 _ (by decide), hrw, obind_some]
    have hv : sgn (8 * 8) (n + 2 ^ 64).toNat = n := by
      rw [sgn_eq_sub _ _ (by norm_num; omega)]; norm_num; omega
    rw [hv]

theorem readValue_enc_int (fuel : Nat) (n : Int) (rest : List Nat)
    (h1 : -(2 ^ 63) ≤ n) (h2 : n < 2 ^ 64) :
    readValue (fuel + 1) (encodeValue (.int n) ++ rest) = some (.int n, rest) := by
  rw [encodeValue]
  by_cases hn : 0 ≤ n
  · rw [if_pos hn, readValue_enc_uint fuel n.toNat rest (by omega)]
    rw [Int.toNat_of_nonneg hn]
  · rw [if_neg hn]
    exact readValue_enc_sint fuel n rest h1 (by omega)

theorem readValue_enc_f32 (fuel bits : Nat) (rest : List Nat) (h : bits < 2 ^ 32) :
    readValue (fuel + 1) (encodeValue (.f32 bits) ++ rest) = some (.f32 bits, rest) := by
  rw [encodeValue, List.cons_append,
    readValue_f32Mark fuel 0xca _ (by decide),
    rdBE_beBytes_zero 4 bits rest (by norm_num at h ⊢; omega), obind_some]

theorem readValue_enc_f64 (fuel bits : Nat) (rest : List Nat) (h : bits < 2 ^ 64) :
    readValue (fuel + 1) (encodeValue (.f64 bits) ++ rest) = some (.f64 bits, rest) := by
  rw [encodeValue, List.cons_append,
    readValue_f64Mark fuel 0xcb _ (by decide),
    rdBE_beBytes_zero 8 bits rest (by norm_num at h ⊢; omega), obind_some]

theorem readValue_enc_str (fuel : Nat) (s rest : List Nat) (h : s.length < 2 ^ 32) :
    readValue (fuel + 1) ((strHeader s.length ++ s) ++ rest) = some (.str s, rest) := by
  rw [strHeader]
  split_ifs with a1 a2 a3
  · simp only [List.cons_append, List.nil_append, List.append_assoc]
    rw [readValue_fixstr fuel _ s.length _ (headOf_fixstr s.length a1),
      takeN_append, omap_some]
  · simp only [List.cons_append, List.nil_append, List.append_assoc]
    rw [readValue_strMark fuel 0xd9 1 _ (by decide), rdBE_one, obind_some]
    simp only [takeN_append, obind_some]
  · have hrw := rdBE_beBytes_zero 2 s.length (s ++ rest) (by norm_num at a3 ⊢; omega)
    simp only [List.cons_append, List.nil_append, List.append_assoc]
    rw [readValue_strMark fuel 0xda 2 _ (by decide), hrw, obind_some]
    simp only [takeN_append, obind_some]
  · have hrw := rdBE_beBytes_zero 4 s.length (s ++ rest) (by norm_num at h ⊢; omega)
    simp only [List.cons_append, List.nil_append, List.append_assoc]
    rw [readValue_strMark fuel 0xdb 4 _ (by decide), hrw, obind_some]
    simp only [takeN_append, obind_some]

theorem readValue_enc_bin (fuel : Nat) (s rest : List Nat) (h : s.length < 2 ^ 32) :
    readValue (fuel + 1) ((binHeader s.length ++ s) ++ rest) = some (.bin s, rest) := by
  rw [binHeader]
  split_ifs with a1 a2
  · simp only [List.cons_append, List.nil_append, List.append_assoc]
    rw [readValue_binMark fuel 0xc4 1 _ (by decide), rdBE_one, obind_some]
    simp only [takeN_append, obind_some]
  · have hrw := rdBE_beBytes_zero 2 s.length (s ++ rest) (by norm_num at a2 ⊢; omega)
    simp only [List.cons_append, List.nil_append, List.append_assoc]
    rw [readValue_binMark fuel 0xc5 2 _ (by decide), hrw, obind_some]
    simp only [takeN_append, obind_some]
  · have hrw := rdBE_beBytes_zero 4 s.length (s ++ rest) (by norm_num at h ⊢; omega)
    simp only [List.cons_append, List.nil_append, List.append_assoc]
    rw [readValue_binMark fuel 0xc6 4 _ (by decide), hrw, obind_some]
    simp only [takeN_append, obind_some]

theorem readValue_arrHeader (fuel len : Nat) (bs : List Nat) (h : len < 2 ^ 32) :
    readValue (fuel + 1) (arrHeader len ++ bs)
      = (readList fuel len bs).map (fun p => (.arr p.1, p.2)) := by
  rw [arrHeader]
  split_ifs with a1 a2
  · rw [List.cons_append, List.nil_append]
    exact readValue_fixarr fuel _ len bs (headOf_fixarr len a1)
  · have hrw := rdBE_beBytes_zero 2 len bs (by norm_num at a2 ⊢; omega)
    rw [List.cons_append, readValue_arrMark fuel 0xdc 2 _ (by decide), hrw, obind_some]
  · have hrw := rdBE_beBytes_zero 4 len bs (by norm_num at h ⊢; omega)
    rw [List.cons_append, readValue_arrMark fuel 0xdd 4 _ (by decide), hrw, obind_some]

theorem readValue_mapHeader (fuel len : Nat) (bs : List Nat) (h : len < 2 ^ 32) :
    readValue (fuel + 1) (mapHeader len ++ bs)
      = (readPairs fuel len bs).map (fun p => (.map p.1, p.2)) := by
  rw [mapHeader]
  split_ifs with a1 a2
  · rw [List.cons_append, List.nil_append]
    exact readValue_fixmap fuel _ len bs (headOf_fixmap len a1)
  · have hrw := rdBE_beBytes_zero 2 len bs (by norm_num at a2 ⊢; omega)
    rw [List.cons_append, readValue_mapMark fuel 0xde 2 _ (by decide), hrw, obind_some]
  · have hrw := rdBE_beBytes_zero 4 len bs (by norm_num at h ⊢; omega)
    rw [List.cons_append, readValue_mapMark fuel 0xdf 4 _ (by decide), hrw, obind_some]

theorem sgn_extTypeByte (ty : Int) (h1 : -128 ≤ ty) (h2 : ty < 128) :
    sgn 8 (extTypeByte ty) = ty := by
  rw [extTypeByte, sgn]
  split_ifs <;> norm_num at * <;> omega

theorem readValue_enc_ext (fuel : Nat) (ty : Int) (data rest : List Nat)
    (h1 : -128 ≤ ty) (h2 : ty < 128) (hlen : data.length < 2 ^ 32) :
    readValue (fuel + 1) ((extHeader data.length ty ++ data) ++ rest)
      = some (.ext ty data, rest) := by
  rw [extHeader]
  split_ifs with a1 a2 a3 a4 a5 a6 a7
  · simp only [List.cons_append, List.nil_append, List.append_assoc]
    rw [readValue_fixext fuel 0xd4 1 _ (by decide), rdBE_one, obind_some, ← a1,
      takeN_append, obind_some, sgn_extTypeByte ty h1 h2]
  · simp only [List.cons_append, List.nil_append, List.append_assoc]
    rw [readValue_fixext fuel 0xd5 2 _ (by decide), rdBE_one, obind_some, ← a2,
      takeN_append, obind_some, sgn_extTypeByte ty h1 h2]
  · simp only [List.cons_append, List.nil_append, List.append_assoc]
    rw [readValue_fixext fuel 0xd6 4 _ (by decide), rdBE_one, obind_some, ← a3,
      takeN_append, obind_some, sgn_extTypeByte ty h1 h2]
  · simp only [List.cons_append, List.nil_append, List.append_assoc]
    rw [readValue_fixext fuel 0xd7 8 _ (by decide), rdBE_one, obind_some,
      sgn_extTypeByte ty h1 h2, ← a4, takeN_append, obind_some]
  · simp only [List.cons_append, List.nil_append, List.append_assoc]
    rw [readValue_fixext fuel 0xd8 16 _ (by decide), rdBE_one, obind_some, ← a5,
      takeN_append, obind_some, sgn_extTypeByte ty h1 h2]
  · simp only [List.cons_append, List.nil_append, List.append_assoc]
    rw [readValue_extMark fuel 0xc7 1 _ (by decide), rdBE_one, obind_some,
      rdBE_one, obind_some, takeN_append, obind_some, sgn_extTypeByte ty h1 h2]
  · have hrw := rdBE_beBytes_zero 2 data.length
      (extTypeByte ty :: (data ++ rest)) (by norm_num at a7 ⊢; omega)
    simp only [List.cons_append, List.nil_append, List.append_assoc]
    rw [readValue_extMark fuel 0xc8 2 _ (by decide), hrw, obind_some,
      rdBE_one, obind_some, takeN_append, obind_some, sgn_extTypeByte ty h1 h2]
  · have hrw := rdBE_beBytes_zero 4 data.length
      (extTypeByte ty :: (data ++ rest)) (by norm_num at hlen ⊢; omega)
    simp only [List.cons_append, List.nil_append, List.append_assoc]
    rw [readValue_extMark fuel 0xc9 4 _ (by decide), hrw, obind_some,
      rdBE_one, obind_some, takeN_append, obind_some, sgn_extTypeByte ty h1 h2]

/-! ### The codec round-trip, by induction on fuel -/

theorem value_depth_pos (v : Value) : 1 ≤ v.depth := by
  cases v <;> simp [Value.depth]

theorem codec_roundtrip_all (fuel : Nat) :
    ReadValueOk fuel ∧ ReadListOk fuel ∧ ReadPairsOk fuel := by
  induction fuel with
  | zero =>
    refine ⟨?_, ?_, ?_⟩
    · intro v rest _ hd
      have := value_depth_pos v
      omega
    · intro vs rest hv hd
      cases vs with
      | nil => simp [encodeList, readList]
      | cons v vs =>
        exfalso
        simp only [Value.depth.depthList] at hd
        have := value_depth_pos v
        omega
    · intro kvs rest hv hd
      cases kvs with
      | nil => simp [encodePairs, readPairs]
      | cons kv kvs =>
        exfalso
        obtain ⟨k, v⟩ := kv
        simp only [Value.depth.depthPairs] at hd
        have := value_depth_pos k
        omega
  | succ f ih =>
    obtain ⟨ihP, ihQ, ihR⟩ := ih
    have hP : ReadValueOk (f + 1) := by
      intro v rest hv hd
      cases v with
      | nil => exact readValue_enc_nil f rest
      | bool b => exact readValue_enc_bool f b rest
      | int n =>
        simp only [Value.validb, Bool.and_eq_true, decide_eq_true_eq] at hv
        exact readValue_enc_int f n rest hv.1 hv.2
      | f32 bits =>
        simp only [Value.validb, decide_eq_true_eq] at hv
        exact readValue_enc_f32 f bits rest hv
      | f64 bits =>
        simp only [Value.validb, decide_eq_true_eq] at hv
        exact readValue_enc_f64 f bits rest hv
      | str s =>
        simp only [Value.validb, Bool.and_eq_true, decide_eq_true_eq] at hv
        rw [encodeValue]
        exact readValue_enc_str f s rest hv.1
      | bin s =>
        simp only [Value.validb, Bool.and_eq_true, decide_eq_true_eq] at hv
        rw [encodeValue]
        exact readValue_enc_bin f s rest hv.1
      | ext ty data =>
        simp only [Value.validb, Bool.and_eq_true, decide_eq_true_eq] at hv
        rw [encodeValue]
        exact readValue_enc_ext f ty data rest hv.1.1.1 hv.1.1.2 hv.1.2
      | arr items =>
        simp only [Value.validb, Bool.and_eq_true, decide_eq_true_eq] at hv
        simp only [Value.depth] at hd
        rw [encodeValue, List.append_assoc,
          readValue_arrHeader f items.length _ hv.1,
          ihQ items rest hv.2 (by omega), omap_some]
      | map entries =>
        simp only [Value.validb, Bool.and_eq_true, decide_eq_true_eq] at hv
        simp only [Value.depth] at hd
        rw [encodeValue, List.append_assoc,
          readValue_mapHeader f entries.length _ hv.1,
          ihR entries rest hv.2 (by omega), omap_some]
    have hQ : ReadListOk (f + 1) := by
      intro vs
      induction vs with
      | nil => intro rest _ _; simp [encodeList, readList]
      | cons v vs ihvs =>
        intro rest hv hd
        simp only [Value.validb.validList, Bool.and_eq_true] at hv
        simp only [Value.depth.depthList] at hd
        have hd1 : v.depth ≤ f + 1 := le_trans (le_max_left _ _) hd
        have hd2 : Value.depth.depthList vs ≤ f + 1 :=
          le_trans (le_max_right _ _) hd
        rw [encodeList, List.append_assoc, List.length_cons, readList,
          hP v _ hv.1 hd1]
        simp only [mbind_some]
        rw [ihvs rest hv.2 hd2]
        simp only [mbind_some]
    have hR : ReadPairsOk (f + 1) := by
      intro kvs
      induction kvs with
      | nil => intro rest _ _; simp [encodePairs, readPairs]
      | cons kv kvs ihkvs =>
        obtain ⟨k, v⟩ := kv
        intro rest hv hd
        simp only [Value.validb.validPairs, Bool.and_eq_true] at hv
        simp only [Value.depth.depthPairs] at hd
        have hdk : k.depth ≤ f + 1 :=
          le_trans (le_trans (le_max_left _ _) (le_max_left _ _)) hd
        have hdv : v.depth ≤ f + 1 :=
          le_trans (le_trans (le_max_right _ _) (le_max_left _ _)) hd
        have hdr : Value.depth.depthPairs kvs ≤ f + 1 :=
          le_trans (le_max_right _ _) hd
        rw [encodePairs, List.append_assoc, List.append_assoc,
          List.length_cons, readPairs,
          hP k _ hv.1.1 hdk]
        simp only [mbind_some]
        rw [hP v _ hv.1.2 hdv]
        simp only [mbind_some]
        rw [ihkvs rest hv.2 hdr]
        simp only [mbind_some]
    exact ⟨hP, hQ, hR⟩

/-! ### Fuel sufficiency: nesting depth never exceeds encoded length -/

theorem one_le_length_uintBytes (m : Nat) : 1 ≤ (uintBytes m).length := by
  rw [uintBytes]; split_ifs <;> simp

theorem one_le_length_sintBytes (n : Int) : 1 ≤ (sintBytes n).length := by
  rw [sintBytes]; split_ifs <;> simp

theorem one_le_length_strHeader (len : Nat) : 1 ≤ (strHeader len).length := by
  rw [strHeader]; split_ifs <;> simp

theorem one_le_length_binHeader (len : Nat) : 1 ≤ (binHeader len).length := by
  rw [binHeader]; split_ifs <;> simp

theorem one_le_length_arrHeader (len : Nat) : 1 ≤ (arrHeader len).length := by
  rw [arrHeader]; split_ifs <;> simp

theorem one_le_length_mapHeader (len : Nat) : 1 ≤ (mapHeader len).length := by
  rw [mapHeader]; split_ifs <;> simp

theorem one_le_length_extHeader (len : Nat) (ty : Int) :
    1 ≤ (extHeader len ty).length := by
  rw [extHeader]; split_ifs <;> simp

theorem one_le_encLength (v : Value) : 1 ≤ (encodeValue v).length := by
  cases v with
  | nil => simp [encodeValue]
  | bool b => cases b <;> simp [encodeValue]
  | int n =>
    rw [encodeValue]
    by_cases hn : 0 ≤ n
    · rw [if_pos hn]; exact one_le_length_uintBytes n.toNat
    · rw [if_neg hn]; exact one_le_length_sintBytes n
  | f32 bits => simp [encodeValue]
  | f64 bits => simp [encodeValue]
  | str s =>
    rw [encodeValue, List.length_append]
    have := one_le_length_strHeader s.length
    omega
  | bin s =>
    rw [encodeValue, List.length_append]
    have := one_le_length_binHeader s.length
    omega
  | arr items =>
    rw [encodeValue, List.length_append]
    have := one_le_length_arrHeader items.length
    omega
  | map entries =>
    rw [encodeValue, List.length_append]
    have := one_le_length_mapHeader entries.length
    omega
  | ext ty data =>
    rw [encodeValue, List.length_append]
    have := one_le_length_extHeader data.length ty
    omega

theorem value_sizeOf_pos (v : Value) : 0 < sizeOf v := by
  cases v <;> simp

theorem depth_le_encLength_all (N : Nat) :
    (∀ v : Value, sizeOf v ≤ N → v.depth ≤ (encodeValue v).length) ∧
    (∀ vs : List Value, sizeOf vs ≤ N →
      Value.depth.depthList vs ≤ (encodeList vs).length) ∧
    (∀ kvs : List (Value × Value), sizeOf kvs ≤ N →
      Value.depth.depthPairs kvs ≤ (encodePairs kvs).length) := by
  induction N with
  | zero =>
    refine ⟨?_, ?_, ?_⟩
    · intro v hs
      have := value_sizeOf_pos v
      omega
    · intro vs hs
      cases vs with
      | nil => simp [Value.depth.depthList]
      | cons v vs => simp at hs
    · intro kvs hs
      cases kvs with
      | nil => simp [Value.depth.depthPairs]
      | cons kv kvs => simp at hs
  | succ N ih =>
    obtain ⟨ihP, ihQ, ihR⟩ := ih
    have hP : ∀ v : Value, sizeOf v ≤ N + 1 → v.depth ≤ (encodeValue v).length := by
      intro v hs
      cases v with
      | arr items =>
        have hsi : sizeOf items ≤ N := by simp at hs; omega
        have h1 := one_le_length_arrHeader items.length
        have h2 := ihQ items hsi
        simp only [Value.depth, encodeValue, List.length_append]
        omega
      | map entries =>
        have hsi : sizeOf entries ≤ N := by simp at hs; omega
        have h1 := one_le_length_mapHeader entries.length
        have h2 := ihR entries hsi
        simp only [Value.depth, encodeValue, List.length_append]
        omega
      | nil => simpa [Value.depth] using one_le_encLength .nil
      | bool b => simpa [Value.depth] using one_le_encLength (.bool b)
      | int n => simpa [Value.depth] using one_le_encLength (.int n)
      | f32 bits => simpa [Value.depth] using one_le_encLength (.f32 bits)
      | f64 bits => simpa [Value.depth] using one_le_encLength (.f64 bits)
      | str s => simpa [Value.depth] using one_le_encLength (.str s)
      | bin s => simpa [Value.depth] using one_le_encLength (.bin s)
      | ext ty data => simpa [Value.depth] using one_le_encLength (.ext ty data)
    refine ⟨hP, ?_, ?_⟩
    · intro vs hs
      cases vs with
      | nil => simp [Value.depth.depthList]
      | cons v vs =>
        have hsv : sizeOf v ≤ N + 1 := by simp at hs; omega
        have hsl : sizeOf vs ≤ N := by
          simp at hs
          have := value_sizeOf_pos v
          omega
        have h1 := hP v hsv
        have h2 := ihQ vs hsl
        simp only [Value.depth.depthList, encodeList, List.length_append]
        exact max_le (by omega) (by omega)
    · intro kvs hs
      cases kvs with
      | nil => simp [Value.depth.depthPairs]
      | cons kv kvs =>
        obtain ⟨k, v⟩ := kv
        have hsk : sizeOf k ≤ N + 1 := by simp at hs; omega
        have hsv : sizeOf v ≤ N + 1 := by simp at hs; omega
        have hsl : sizeOf kvs ≤ N := by
          simp at hs
          have := value_sizeOf_pos k
          have := value_sizeOf_pos v
          omega
        have h1 := hP k hsk
        have h2 := hP v hsv
        have h3 := ihR kvs hsl
        simp only [Value.depth.depthPairs, encodePairs, List.length_append]
        exact max_le (max_le (by omega) (by omega)) (by omega)

theorem depth_le_encLength (v : Value) : v.depth ≤ (encodeValue v).length :=
  (depth_le_encLength_all (sizeOf v)).1 v (le_refl _)

/-- Master round-trip of the value codec: decoding the encoding of a
representable value, with any trailing bytes, returns exactly that value
and the trailing bytes, at any fuel at least the input length plus one. -/
theorem readValue_encodeValue (v : Value) (rest : List Nat) (fuel : Nat)
    (hv : v.validb = true) (hfuel : (encodeValue v).length ≤ fuel) :
    readValue fuel (encodeValue v ++ rest) = some (v, rest) := by
  have h1 := depth_le_encLength v
  obtain ⟨hP, -, -⟩ := codec_roundtrip_all fuel
  exact hP v rest hv (by omega)

/-! ### Message round-trip -/

theorem toValue_validb (m : Message) (hm : m.wfb = true) :
    m.toValue.validb = true := by
  cases m with
  | request r =>
    obtain ⟨id, method, params⟩ := r
    simp only [Message.wfb, Bool.and_eq_true, decide_eq_true_eq] at hm
    obtain ⟨⟨⟨hid, hutf⟩, hstr⟩, harr⟩ := hm
    simp only [Value.validb, Bool.and_eq_true, decide_eq_true_eq] at hstr harr
    simp only [Message.toValue, Value.validb, Value.validb.validList,
      Bool.and_eq_true, decide_eq_true_eq]
    refine ⟨by norm_num, ⟨by norm_num, by norm_num⟩, ⟨?_, ?_⟩, hstr, harr, trivial⟩
    · omega
    · have : (id : Int) < 2 ^ 32 := by omega
      omega
  | response r =>
    obtain ⟨id, result⟩ := r
    simp only [Message.wfb, Bool.and_eq_true, decide_eq_true_eq] at hm
    obtain ⟨hid, hres⟩ := hm
    cases result with
    | ok v =>
      simp only [Message.toValue, Value.validb, Value.validb.validList,
        Bool.and_eq_true, decide_eq_true_eq]
      simp only at hres
      refine ⟨by norm_num, ⟨by norm_num, by norm_num⟩, ⟨by omega, by omega⟩,
        trivial, hres, trivial⟩
    | error e =>
      simp only [Message.toValue, Value.validb, Value.validb.validList,
        Bool.and_eq_true, decide_eq_true_eq]
      simp only at hres
      refine ⟨by norm_num, ⟨by norm_num, by norm_num⟩, ⟨by omega, by omega⟩,
        hres, trivial, trivial⟩
  | notification n =>
    obtain ⟨method, params⟩ := n
    simp only [Message.wfb, Bool.and_eq_true, decide_eq_true_eq] at hm
    obtain ⟨⟨hutf, hstr⟩, harr⟩ := hm
    simp only [Value.validb, Bool.and_eq_true, decide_eq_true_eq] at hstr harr
    simp only [Message.toValue, Value.validb, Value.validb.validList,
      Bool.and_eq_true, decide_eq_true_eq]
    exact ⟨by norm_num, ⟨by norm_num, by norm_num⟩, hstr, harr, trivial⟩

/-- Round-trip with trailing bytes: unpacking the packed bytes of a
well-formed message, followed by any suffix, returns the message and
leaves the suffix unconsumed. The `errNonNil` hypothesis excludes the
one shape that does not round-trip, a Response with outcome `Err(Nil)`. -/
theorem unpack_pack_append (m : Message) (rest : List Nat)
    (hm : m.wfb = true) (he : m.errNonNil = true) :
    Message.unpack (m.pack ++ rest) = .ok (m, rest) := by
  have hvv := toValue_validb m hm
  have hfuel : (encodeValue m.toValue).length
      ≤ (encodeValue m.toValue ++ rest).length + 1 := by
    rw [List.length_append]; omega
  rw [Message.pack, Message.unpack,
    readValue_encodeValue m.toValue rest _ hvv hfuel]
  cases m with
  | request r =>
    obtain ⟨id, method, params⟩ := r
    simp only [Message.wfb, Bool.and_eq_true, decide_eq_true_eq] at hm
    obtain ⟨⟨⟨hid, hutf⟩, -⟩, -⟩ := hm
    have h0 : ¬ ((id : Int) < 0) := by omega
    have hni : ((id : Int)).toNat % 2 ^ 32 = id := by
      have hc : ((id : Int)).toNat = id := by omega
      rw [hc, Nat.mod_eq_of_lt hid]
    simp only [Message.toValue, List.get?]
    simp [hutf, h0, hni]; omega
  | response r =>
    obtain ⟨id, result⟩ := r
    simp only [Message.wfb, Bool.and_eq_true, decide_eq_true_eq] at hm
    obtain ⟨hid, -⟩ := hm
    have h0 : ¬ ((id : Int) < 0) := by omega
    have hni : ((id : Int)).toNat % 2 ^ 32 = id := by
      have hc : ((id : Int)).toNat = id := by omega
      rw [hc, Nat.mod_eq_of_lt hid]
    cases result with
    | ok v =>
      simp only [Message.toValue, List.get?]
      simp [h0, hni]; omega
    | error e =>
      cases e with
      | nil => simp [Message.errNonNil] at he
      | bool b =>
        simp only [Message.toValue, List.get?]
        simp [h0, hni]; omega
      | int i =>
        simp only [Message.toValue, List.get?]
        simp [h0, hni]; omega
      | f32 bits =>
        simp only [Message.toValue, List.get?]
        simp [h0, hni]; omega
      | f64 bits =>
        simp only [Message.toValue, List.get?]
        simp [h0, hni]; omega
      | str s =>
        simp only [Message.toValue, List.get?]
        simp [h0, hni]; omega
      | bin s =>
        simp only [Message.toValue, List.get?]
        simp [h0, hni]; omega
      | arr items =>
        simp only [Message.toValue, List.get?]
        simp [h0, hni]; omega
      | map entries =>
        simp only [Message.toValue, List.get?]
        simp [h0, hni]; omega
      | ext ty data =>
        simp only [Message.toValue, List.get?]
        simp [h0, hni]; omega
  | notification n =>
    obtain ⟨method, params⟩ := n
    simp only [Message.wfb, Bool.and_eq_true, decide_eq_true_eq] at hm
    obtain ⟨⟨hutf, -⟩, -⟩ := hm
    simp only [Message.toValue, List.get?]
    simp [hutf]

/-- Decoding an encoded wire Request array with an arbitrary u64 id slot:
the id is brought into range by the source's `as u32` truncating cast. -/
theorem unpack_encoded_request (idI : Int) (method : List Nat)
    (params : List Value) (rest : List Nat)
    (h0 : 0 ≤ idI) (h64 : idI < 2 ^ 64)
    (hutf : validUtf8 method = true)
    (hstr : (Value.str method).validb = true)
    (hpar : (Value.arr params).validb = true) :
    Message.unpack
        (encodeValue (.arr [.int 0, .int idI, .str method, .arr params]) ++ rest)
      = .ok (.request ⟨idI.toNat % 2 ^ 32, method, params⟩, rest) := by
  have hvv : (Value.arr [.int 0, .int idI, .str method, .arr params]).validb
      = true := by
    simp only [Value.validb, Bool.and_eq_true, decide_eq_true_eq] at hstr hpar
    simp only [Value.validb, Value.validb.validList, Bool.and_eq_true,
      decide_eq_true_eq]
    exact ⟨by norm_num, ⟨by norm_num, by norm_num⟩, ⟨by omega, by omega⟩,
      hstr, hpar, trivial⟩
  rw [Message.unpack,
    readValue_encodeValue _ rest _ hvv (by rw [List.length_append]; omega)]
  have hneg : ¬ (idI < 0) := by omega
  simp only [List.get?]
  simp [hutf, hneg]

/-- Decoding an encoded wire Response array: the outcome is `Ok(result)`
exactly when the error slot is nil, and `Err(error)` otherwise, the
result slot being discarded. -/
theorem unpack_encoded_response (id : Nat) (e r : Value) (rest : List Nat)
    (hid : id < 2 ^ 32) (he : e.validb = true) (hr : r.validb = true) :
    Message.unpack (encodeValue (.arr [.int 1, .int id, e, r]) ++ rest)
      = .ok (.response ⟨id, match e with | .nil => .ok r | _ => .error e⟩,
          rest) := by
  have hvv : (Value.arr [.int 1, .int (id : Int), e, r]).validb = true := by
    simp only [Value.validb, Value.validb.validList, Bool.and_eq_true,
      decide_eq_true_eq]
    exact ⟨by norm_num, ⟨by norm_num, by norm_num⟩, ⟨by omega, by omega⟩,
      he, hr, trivial⟩
  rw [Message.unpack,
    readValue_encodeValue _ rest _ hvv (by rw [List.length_append]; omega)]
  have h0 : ¬ ((id : Int) < 0) := by omega
  have hni : ((id : Int)).toNat % 2 ^ 32 = id := by
    have hc : ((id : Int)).toNat = id := by omega
    rw [hc, Nat.mod_eq_of_lt hid]
  cases e <;> (simp only [List.get?]; simp [h0, hni]; omega)

/-! ## Claims -/

/-- Claim C1, counterexample: the claim includes every ok-or-err outcome,
but a Response with outcome `Err(Nil)` does not round-trip. Its wire form
is `[1, 0, nil, nil]`; the decoder sees a nil error slot and returns
outcome `Ok(Nil)`, a different message. -/
theorem c1_roundtrip_counterexample :
    Message.unpack (Message.pack (.response ⟨0, .error .nil⟩))
      = .ok (.response ⟨0, .ok .nil⟩, [])
    ∧ Message.response ⟨0, .ok .nil⟩ ≠ Message.response ⟨0, .error .nil⟩ := by
  constructor
  · have h := unpack_encoded_response 0 .nil .nil [] (by norm_num) rfl rfl
    rw [List.append_nil] at h
    exact h
  · simp

/-- Claim C1 (amended): for every well-formed message whose Response
outcome, when it is an error, carries a non-nil value, decoding the bytes
produced by encoding the message yields exactly the original message
(`Message::unpack` after `Message::pack`). -/
theorem c1_roundtrip (m : Message) (hm : Message.wfb m = true)
    (he : Message.errNonNil m = true) :
    Message.unpack (Message.pack m) = .ok (m, []) := by
  have h := unpack_pack_append m [] hm he
  rwa [List.append_nil] at h

/-- Claim C1, witness: the round-trip at the request
`echo("hi")` with id 0 (method and string payloads as UTF-8 bytes). -/
theorem c1_roundtrip_witness :
    Message.unpack
        (Message.pack (.request ⟨0, [101, 99, 104, 111], [.str [104, 105]]⟩))
      = .ok (.request ⟨0, [101, 99, 104, 111], [.str [104, 105]]⟩, []) :=
  c1_roundtrip _ (by decide) (by decide)

/-- Claim C2: the decoder never returns `Malformed` or `Truncated` error
values: on invalid input it panics. At the wire bytes of `[3, 0, "x", []]`
(an unknown type tag, the spec's own malformed-frame scenario) the source
hits `unimplemented!()` and the thread dies; this theorem evaluates the
embedded decoder at those bytes to the corresponding panic marker. -/
theorem c2_unknown_tag_panics :
    Message.unpack [148, 3, 0, 161, 120, 144] = .error .unknownTag := by
  have hb : [148, 3, 0, 161, 120, 144]
      = encodeValue (.arr [.int 3, .int 0, .str [120], .arr []]) ++ [] := rfl
  rw [hb, Message.unpack,
    readValue_encodeValue _ [] _ (by decide) (by decide)]
  rfl

/-- Claim C3: for every decoded Request, the spawned handler task invokes
the dispatcher exactly once with the request's method and params, writes
back exactly one Response whose id is the request's id and whose outcome
is exactly the dispatcher's return value (also when that value is the err
side), does not invoke notify, and does not panic. -/
theorem c3_request_dispatch_response
    (d : List Nat → List Value → Except Value Value) (conn id : Nat)
    (method : List Nat) (params : List Value) :
    serverHandleMessage d conn (.request ⟨id, method, params⟩)
      = ⟨[⟨.defaultDispatcher, method, params⟩], [],
         [.response ⟨id, d method params⟩], false⟩ := rfl

/-- Claim C4: for every wire Response array `[1, id, error, result]`, the
decoder yields outcome `Ok(result)` exactly when the error slot is nil;
a non-nil error slot yields `Err(error)` and the result slot is
discarded, even when it is non-nil. -/
theorem c4_response_error_wins (id : Nat) (e r : Value) (rest : List Nat)
    (hid : id < 2 ^ 32) (he : e.validb = true) (hr : r.validb = true) :
    (e.isNil = true →
      Message.unpack (encodeValue (.arr [.int 1, .int id, e, r]) ++ rest)
        = .ok (.response ⟨id, .ok r⟩, rest))
    ∧ (e.isNil = false →
      Message.unpack (encodeValue (.arr [.int 1, .int id, e, r]) ++ rest)
        = .ok (.response ⟨id, .error e⟩, rest)) := by
  have h := unpack_encoded_response id e r rest hid he hr
  constructor <;> intro hcase <;> cases e <;> first
    | exact h
    | simp [Value.isNil] at hcase

/-- Claim C4, witness: decoding `[1, 7, "nope", "x"]`, where both the
error and the result slots are non-nil, yields `Err("nope")` and discards
the `"x"` in the result slot. -/
theorem c4_response_error_wins_witness :
    Message.unpack
        (encodeValue
          (.arr [.int 1, .int 7, .str [110, 111, 112, 101], .str [120]]) ++ [])
      = .ok (.response ⟨7, .error (.str [110, 111, 112, 101])⟩, []) :=
  (c4_response_error_wins 7 (.str [110, 111, 112, 101]) (.str [120]) []
    (by decide) (by decide) (by decide)).2 rfl

/-- Claim C5: an id slot holding an integer that does not fit in 32 bits
is not rejected as `Malformed`: the source's `id as u32` cast silently
wraps. Decoding the wire Request `[0, 2^32, "m", []]` succeeds and
returns id 0. -/
theorem c5_oversized_id_wraps :
    Message.unpack
        (encodeValue (.arr [.int 0, .int (2 ^ 32), .str [109], .arr []]))
      = .ok (.request ⟨0, [109], []⟩, []) := by
  have h := unpack_encoded_request (2 ^ 32) [109] [] []
    (by norm_num) (by norm_num) rfl rfl rfl
  rw [List.append_nil] at h
  simpa using h

/-- Claim C6: decoding consumes exactly one top-level msgpack value: on
the concatenation of a well-formed message's encoding with any byte
suffix, `Message::unpack` returns that message and leaves exactly the
suffix unconsumed in the stream. -/
theorem c6_unpack_consumes_exactly_one (m : Message) (rest : List Nat)
    (h : Message.wellFormed m = true) :
    Message.unpack (Message.pack m ++ rest) = .ok (m, rest) := by
  simp only [Message.wellFormed, Bool.and_eq_true] at h
  exact unpack_pack_append m rest h.1 h.2

/-- Claim C6, witness: the notification `ping("hi")` followed by the
byte 192; decode returns the notification and is positioned at 192. -/
theorem c6_unpack_consumes_exactly_one_witness :
    Message.unpack
        (Message.pack (.notification ⟨[112, 105, 110, 103], [.str [104, 105]]⟩)
          ++ [192])
      = .ok (.notification ⟨[112, 105, 110, 103], [.str [104, 105]]⟩, [192]) :=
  c6_unpack_consumes_exactly_one _ [192] (by decide)

/-- Claim C7, counterexample: a Response with outcome `Ok(Nil)` encodes as
the array `[1, 0, nil, nil]`, in which neither the error slot nor the
result slot is non-nil — not exactly one. -/
theorem c7_response_encoding_counterexample :
    Message.toValue (.response ⟨0, .ok .nil⟩)
      = .arr [.int 1, .int 0, .nil, .nil]
    ∧ exactlyOneNonNil .nil .nil = false := ⟨rfl, rfl⟩

/-- Claim C7 (amended): every Response encodes as the 4-element array
`[1, id, error, result]` with error nil and result the value for an ok
outcome, and error the value and result nil for an err outcome; when the
carried value is non-nil, exactly one of the two slots is non-nil. -/
theorem c7_response_encoding (id : Nat) (res : Except Value Value) :
    (∀ v, res = .ok v →
      Message.pack (.response ⟨id, res⟩)
        = encodeValue (.arr [.int 1, .int id, .nil, v])
      ∧ (v.isNil = false → exactlyOneNonNil .nil v = true))
    ∧ (∀ e, res = .error e →
      Message.pack (.response ⟨id, res⟩)
        = encodeValue (.arr [.int 1, .int id, e, .nil])
      ∧ (e.isNil = false → exactlyOneNonNil e .nil = true)) := by
  constructor
  · intro v hv
    subst hv
    refine ⟨rfl, fun hnn => ?_⟩
    rw [exactlyOneNonNil, hnn]
    rfl
  · intro e hes
    subst hes
    refine ⟨rfl, fun hnn => ?_⟩
    rw [exactlyOneNonNil, hnn]
    rfl

/-- Claim C7, witness: `Response{id=7, Err("nope")}` encodes as
`[1, 7, "nope", nil]` (the spec's own scenario 5), and exactly one of
its error and result slots is non-nil. -/
theorem c7_response_encoding_witness :
    Message.pack (.response ⟨7, .error (.str [110, 111, 112, 101])⟩)
      = encodeValue (.arr [.int 1, .int 7, .str [110, 111, 112, 101], .nil])
    ∧ exactlyOneNonNil (.str [110, 111, 112, 101]) .nil = true :=
  ⟨((c7_response_encoding 7 (.error (.str [110, 111, 112, 101]))).2 _ rfl).1,
   ((c7_response_encoding 7 (.error (.str [110, 111, 112, 101]))).2 _ rfl).2
     rfl⟩

/-- Claim C8: a decoded Notification is never delivered to the
dispatcher's notify operation: the spawned task falls into the
`_ => unimplemented!()` arm and panics. No notify call is recorded and
no Response is written (the latter half of the claim holds, the delivery
half does not). -/
theorem c8_notification_panics
    (d : List Nat → List Value → Except Value Value) (conn : Nat)
    (method : List Nat) (params : List Value) :
    serverHandleMessage d conn (.notification ⟨method, params⟩)
      = ⟨[], [], [], true⟩ := rfl

/-- Claim C9: the peer handle the server passes to the dispatcher is
`Box::new(D::default())`, a freshly default-constructed dispatcher, and
is distinct from a client handle bound to the originating connection
(`conn`), contrary to the claim. -/
theorem c9_peer_handle_not_bound
    (d : List Nat → List Value → Except Value Value) (conn id : Nat)
    (method : List Nat) (params : List Value) :
    (serverHandleMessage d conn (.request ⟨id, method, params⟩)).dispatched
      = [⟨.defaultDispatcher, method, params⟩]
    ∧ decide (PeerHandle.defaultDispatcher = PeerHandle.boundTo conn)
        = false := ⟨rfl, rfl⟩

end MsgpackRpc
